import Mathlib

/-!
Verification of the snapsequence photo renamer (`rename_photos.py`).

The development shallowly embeds the Python source: file names are lists of
characters, a directory's contents are an association list from paths to
(abstract) file contents, and `Path.rename` is modelled as a partial map
update that fails exactly when the source path is absent and silently
overwrites an existing destination (POSIX semantics).  Each Python function
(`get_creation_date`, `find_images`, `generate_new_names`, `rename_files`,
`confirm_action`, `main`) has a Lean counterpart of the same name.
-/

namespace SnapSequence

/-- File names and path components are sequences of characters
(the embedding of Python `str` for this domain). -/
abbrev Name := List Char

/-! ### Decimal rendering, `f"{i:02d}"` -/

/-- Fuel-indexed decimal digit rendering; `fuel` bounds the recursion depth
so the definition is structural (and hence computable by `decide`/`rfl`).
With `n < fuel` it renders the full decimal expansion of `n`. -/
def digitsAux : Nat → Nat → List Char
  | 0, _ => []
  | fuel + 1, n =>
    if n < 10 then [Nat.digitChar n]
    else digitsAux fuel (n / 10) ++ [Nat.digitChar (n % 10)]

/-- The decimal digits of `n`, most significant first (`str(n)` in Python). -/
def natDigits (n : Nat) : List Char := digitsAux (n + 1) n

/-- The embedding of the Python format `f"{i:02d}"`: the decimal rendering
of `i`, left-padded with a single zero to a minimum width of two digits. -/
def pad2 (n : Nat) : Name :=
  if n < 10 then '0' :: natDigits n else natDigits n

/-- Numeric value of a digit character (inverse of `Nat.digitChar` below 10). -/
def digitVal (c : Char) : Nat := c.toNat - 48

/-- Parse a digit string back to a number; used to state that the numeric
stem of a generated name is exactly the sequence index. -/
def parseNat (cs : List Char) : Nat :=
  cs.foldl (fun a c => 10 * a + digitVal c) 0

/-! ### Strings: lowercasing, stripping, extensions -/

/-- The embedding of `str.lower()` (the recognized extensions and prompt
answers are ASCII, where `Char.toLower` agrees with Python). -/
def lowerAscii (n : Name) : Name := n.map Char.toLower

/-- The embedding of `str.strip()`: drop whitespace at both ends. -/
def strip (n : Name) : Name :=
  ((n.dropWhile Char.isWhitespace).reverse.dropWhile Char.isWhitespace).reverse

/-- The embedding of `pathlib.PurePath.suffix` applied to a file name:
the part of the name from its last dot on, provided that dot is neither
the first nor the last character; otherwise the empty string. -/
def suffix (name : Name) : Name :=
  let rev := name.reverse
  let afterRev := rev.takeWhile (fun c => ¬ c = '.')
  if afterRev.length = name.length then []
  else if afterRev.length = 0 then []
  else if afterRev.length = name.length - 1 then []
  else '.' :: afterRev.reverse

/-- A possible output of `suffix`: empty or starting with a dot. -/
def Dotted (e : Name) : Prop := e = [] ∨ ∃ r, e = '.' :: r

/-- `IMAGE_EXTENSIONS = {'.jpg', '.jpeg', '.png', '.heic'}` from the source. -/
def IMAGE_EXTENSIONS : List Name :=
  [".jpg".data, ".jpeg".data, ".png".data, ".heic".data]

/-! ### Paths, stat metadata, directory entries -/

/-- A filesystem path, split as `pathlib.Path.parent` and `pathlib.Path.name`. -/
structure FPath where
  parent : Name
  name : Name
deriving DecidableEq

/-- The slice of `os.stat_result` that `get_creation_date` consults:
`st_birthtime` when the platform exposes it, `st_ctime`, `st_mtime`.
Timestamps are abstracted to naturals. -/
structure Stat where
  birthtime : Option Nat
  ctime : Nat
  mtime : Nat
deriving DecidableEq

/-- One entry of a directory listing (`Path.iterdir()` output): its name,
whether it is a regular file, and its stat metadata. -/
structure Entry where
  name : Name
  isFile : Bool
  st : Stat
deriving DecidableEq

/-- The embedding of `get_creation_date` (rename_photos.py:14-24): prefer
`st_birthtime` when present; otherwise use `st_ctime` on Windows
(`os.name == 'nt'`) and `st_mtime` elsewhere. -/
def get_creation_date (osNt : Bool) (st : Stat) : Nat :=
  match st.birthtime with
  | some b => b
  | none => if osNt then st.ctime else st.mtime

/-- The filter of the list comprehension in `find_images`
(rename_photos.py:29-32): regular files whose lowercased extension is
recognized. -/
def is_image (f : Entry) : Bool :=
  f.isFile && decide (lowerAscii (suffix f.name) ∈ IMAGE_EXTENSIONS)

/-- Comparison key used by `sorted(images, key=get_creation_date)`. -/
def dateLE (osNt : Bool) (a b : Entry) : Bool :=
  decide (get_creation_date osNt a.st ≤ get_creation_date osNt b.st)

/-- The embedding of `find_images` (rename_photos.py:27-33): filter the
directory listing to recognized image files, then stably sort ascending
by the derived creation date (Python `sorted` is a stable merge sort). -/
def find_images (osNt : Bool) (entries : List Entry) : List Entry :=
  (entries.filter is_image).mergeSort (dateLE osNt)

/-! ### Plan generation -/

/-- Target path of the image at 1-based position `i`:
`image.parent / f"{i:02d}{image.suffix.lower()}"` (rename_photos.py:40-41). -/
def target (i : Nat) (image : FPath) : FPath :=
  ⟨image.parent, pad2 i ++ lowerAscii (suffix image.name)⟩

/-- The loop of `generate_new_names`, carrying the 1-based counter of
`enumerate(images, start=1)`. -/
def genFrom (i : Nat) : List FPath → List (FPath × FPath)
  | [] => []
  | image :: rest => (image, target i image) :: genFrom (i + 1) rest

/-- The embedding of `generate_new_names` (rename_photos.py:36-43). -/
def generate_new_names (images : List FPath) : List (FPath × FPath) :=
  genFrom 1 images

/-! ### The filesystem model and `Path.rename` -/

/-- A directory tree modelled as an association list from paths to file
contents (contents abstracted to naturals; equal numbers mean equal bytes). -/
abbrev FS := List (FPath × Nat)

/-- Content stored at path `q`, if any. -/
def FS.lookup : FS → FPath → Option Nat
  | [], _ => none
  | e :: fs, q => if e.1 = q then some e.2 else FS.lookup fs q

/-- Remove every entry at path `q`. -/
def FS.erase : FS → FPath → FS
  | [], _ => []
  | e :: fs, q => if e.1 = q then FS.erase fs q else e :: FS.erase fs q

/-- Store content `c` at path `q`, replacing whatever was there. -/
def FS.insert (fs : FS) (q : FPath) (c : Nat) : FS :=
  (q, c) :: fs.erase q

/-- The embedding of `Path.rename(dst)` on POSIX: fails (raising `OSError`)
exactly when the source does not exist; otherwise moves the content,
silently replacing any file already at the destination. -/
def rename (fs : FS) (src dst : FPath) : Option FS :=
  match fs.lookup src with
  | none => none
  | some c => some ((fs.erase src).insert dst c)

/-! ### Two-phase rename execution -/

/-- The temporary-name marker `"__temp_rename_"` (rename_photos.py:72). -/
def tempTag : Name := "__temp_rename_".data

/-- Whether a name carries the temporary marker at its front. -/
def hasTag (n : Name) : Bool := tempTag.isPrefixOf n

/-- `old_path.parent / f"__temp_rename_{old_path.name}"` (rename_photos.py:72). -/
def tempPath (p : FPath) : FPath :=
  ⟨p.parent, tempTag ++ p.name⟩

/-- Result of the first loop of `rename_files`: either the staged
filesystem, or the filesystem as it stood when a rename raised
(the exception propagates, nothing is rolled back). -/
inductive StageRes where
  | ok (fs : FS)
  | failed (fs : FS)
deriving DecidableEq

/-- Result of `rename_files` as a whole: the final filesystem and the
returned count, or the filesystem at the moment a rename raised. -/
inductive RunRes where
  | ok (fs : FS) (count : Nat)
  | failed (fs : FS)
deriving DecidableEq

/-- First pass of `rename_files` (rename_photos.py:76-84): rename every
plan source to its temporary name, stopping at the first `OSError`. -/
def stagePhase : FS → List (FPath × FPath) → StageRes
  | fs, [] => .ok fs
  | fs, (old, _) :: rest =>
    match rename fs old (tempPath old) with
    | none => .failed fs
    | some fs1 => stagePhase fs1 rest

/-- Second pass of `rename_files` (rename_photos.py:87-97): rename every
temporary name to its final name, counting successes, stopping at the
first `OSError`. -/
def commitPhase : FS → Nat → List (FPath × FPath) → RunRes
  | fs, cnt, [] => .ok fs cnt
  | fs, cnt, (old, new) :: rest =>
    match rename fs (tempPath old) new with
    | none => .failed fs
    | some fs1 => commitPhase fs1 (cnt + 1) rest

/-- The embedding of `rename_files` (rename_photos.py:67-99). -/
def rename_files (fs : FS) (renames : List (FPath × FPath)) : RunRes :=
  match stagePhase fs renames with
  | .failed fs1 => .failed fs1
  | .ok fs1 => commitPhase fs1 0 renames

/-! ### Confirmation prompt and `main` -/

/-- The embedding of `confirm_action` (rename_photos.py:56-64) over the
stream of lines the user types: strip and lowercase each response;
`y`/`yes` accepts, `n`/`no` declines, anything else re-prompts.  `none`
models the loop never receiving a recognized answer. -/
def confirm_action : List Name → Option Bool
  | [] => none
  | r :: rest =>
    let resp := lowerAscii (strip r)
    if resp = "y".data ∨ resp = "yes".data then some true
    else if resp = "n".data ∨ resp = "no".data then some false
    else confirm_action rest

/-- The validation surface `main` sees: the argument folder either is
absent, is not a directory, or cannot be listed; otherwise `entries` is
its listing. -/
structure Folder where
  path : Name
  present : Bool
  isDir : Bool
  readable : Bool
  entries : List Entry

/-- Full path of a directory entry. -/
def entryPath (folder : Folder) (e : Entry) : FPath :=
  ⟨folder.path, e.name⟩

/-- The tail of `main` (rename_photos.py:148-154): run `rename_files`,
exiting 0 on success and 1 when the raised error is caught. -/
def runRenames (fs : FS) (renames : List (FPath × FPath)) : Nat × FS :=
  match rename_files fs renames with
  | .ok fs1 _ => (0, fs1)
  | .failed fs1 => (1, fs1)

/-- The embedding of `main` (rename_photos.py:102-154): validate the
folder, discover images, plan, confirm, execute.  Returns the exit code
and the resulting filesystem; `none` models the confirmation prompt
looping forever. -/
def main (folder : Folder) (osNt : Bool) (fs : FS) (responses : List Name) :
    Option (Nat × FS) :=
  if !folder.present then some (1, fs)
  else if !folder.isDir then some (1, fs)
  else if !folder.readable then some (1, fs)
  else if folder.entries.isEmpty then some (1, fs)
  else
    let images := find_images osNt folder.entries
    if images.isEmpty then some (1, fs)
    else
      let renames := generate_new_names (images.map (entryPath folder))
      match confirm_action responses with
      | none => none
      | some false => some (0, fs)
      | some true => some (runRenames fs renames)

/-- Concrete path inside a directory `"d"`; used by the concrete
evaluations below. -/
def dpath (s : String) : FPath := ⟨"d".data, s.data⟩

/-- The two-file swap scenario: `01.heic` and `02.heic` exchange names. -/
def swapFS : FS := [(dpath "01.heic", 10), (dpath "02.heic", 20)]

/-- The swap plan `01.heic -> 02.heic`, `02.heic -> 01.heic`. -/
def swapPlan : List (FPath × FPath) :=
  [(dpath "01.heic", dpath "02.heic"), (dpath "02.heic", dpath "01.heic")]

/-- The filesystem after executing the swap plan. -/
def swapFinal : FS := [(dpath "01.heic", 20), (dpath "02.heic", 10)]

/-- A directory with two distinct files, used with a plan whose two target
paths coincide (`a.jpg -> c.jpg`, `b.jpg -> c.jpg`). -/
def dupFS : FS := [(dpath "a.jpg", 0), (dpath "b.jpg", 1)]

/-- A plan whose targets are disjoint from its sources but equal to each
other. -/
def dupPlan : List (FPath × FPath) :=
  [(dpath "a.jpg", dpath "c.jpg"), (dpath "b.jpg", dpath "c.jpg")]

/-- The filesystem after executing `dupPlan`: one file remains. -/
def dupFinal : FS := [(dpath "c.jpg", 1)]

/-- A directory that already holds a file named with the temporary tag of
another directory file. -/
def clashFS : FS := [(dpath "__temp_rename_a.jpg", 0), (dpath "a.jpg", 1)]

/-- A one-entry plan over `clashFS` whose staging step lands on the
pre-existing tagged file. -/
def clashPlan : List (FPath × FPath) := [(dpath "a.jpg", dpath "b.jpg")]

/-- A recognized image entry with modification time 1 (no birth time). -/
def eOld : Entry := ⟨"old.jpg".data, true, ⟨none, 0, 1⟩⟩

/-- A recognized image entry with modification time 2 (no birth time). -/
def eNew : Entry := ⟨"new.PNG".data, true, ⟨none, 0, 2⟩⟩

/-- A non-image entry. -/
def eTxt : Entry := ⟨"readme.txt".data, true, ⟨none, 0, 0⟩⟩

/-- A valid folder holding one image, used to drive `main`. -/
def okFolder : Folder := ⟨"d".data, true, true, true, [⟨"a.heic".data, true, ⟨some 3, 0, 0⟩⟩]⟩

/-- A folder whose path does not exist. -/
def badFolder : Folder := ⟨"d".data, false, true, true, []⟩

/-! ### Lemmas about decimal rendering -/

theorem digitsAux_congr : ∀ (f g n : Nat), n < f → n < g →
    digitsAux f n = digitsAux g n := by
  intro f
  induction f with
  | zero => intro g n hf _; omega
  | succ f ih =>
    intro g n hf hg
    cases g with
    | zero => omega
    | succ g =>
      show digitsAux (f + 1) n = digitsAux (g + 1) n
      unfold digitsAux
      by_cases h : n < 10
      · simp [h]
      · have hpos : 0 < n := by omega
        have hdiv : n / 10 < n := Nat.div_lt_self hpos (by omega)
        simp only [if_neg h]
        rw [ih g (n / 10) (by omega) (by omega)]

theorem natDigits_eq (n : Nat) :
    natDigits n =
      if n < 10 then [Nat.digitChar n]
      else natDigits (n / 10) ++ [Nat.digitChar (n % 10)] := by
  have h1 : digitsAux (n + 1) n =
      if n < 10 then [Nat.digitChar n]
      else digitsAux n (n / 10) ++ [Nat.digitChar (n % 10)] := rfl
  by_cases h : n < 10
  · rw [if_pos h] at h1 ⊢
    exact h1
  · rw [if_neg h] at h1 ⊢
    have hdiv : n / 10 < n := Nat.div_lt_self (by omega) (by omega)
    show digitsAux (n + 1) n = _
    rw [h1, digitsAux_congr n (n / 10 + 1) (n / 10) (by omega) (by omega)]
    rfl

theorem natDigits_length_pos (n : Nat) : 1 ≤ (natDigits n).length := by
  rw [natDigits_eq]
  by_cases h : n < 10 <;> simp [h]

theorem natDigits_length_ge_two (n : Nat) (h : 10 ≤ n) :
    2 ≤ (natDigits n).length := by
  rw [natDigits_eq, if_neg (by omega)]
  have := natDigits_length_pos (n / 10)
  simp only [List.length_append, List.length_cons, List.length_nil]
  omega

theorem digitVal_digitChar {k : Nat} (h : k < 10) :
    digitVal (Nat.digitChar k) = k := by
  interval_cases k <;> decide

theorem isDigit_digitChar {k : Nat} (h : k < 10) :
    (Nat.digitChar k).isDigit = true := by
  interval_cases k <;> decide

theorem mem_natDigits_isDigit (n : Nat) :
    ∀ c ∈ natDigits n, c.isDigit = true := by
  induction n using Nat.strong_induction_on with
  | _ n ih =>
    intro c hc
    rw [natDigits_eq] at hc
    by_cases h : n < 10
    · rw [if_pos h] at hc
      simp only [List.mem_singleton] at hc
      exact hc ▸ isDigit_digitChar h
    · rw [if_neg h] at hc
      rcases List.mem_append.1 hc with h1 | h1
      · exact ih (n / 10) (Nat.div_lt_self (by omega) (by omega)) c h1
      · simp only [List.mem_singleton] at h1
        exact h1 ▸ isDigit_digitChar (Nat.mod_lt n (by omega))

theorem parseNat_append_singleton (xs : List Char) (c : Char) :
    parseNat (xs ++ [c]) = 10 * parseNat xs + digitVal c := by
  simp [parseNat, List.foldl_append]

theorem parseNat_natDigits (n : Nat) : parseNat (natDigits n) = n := by
  induction n using Nat.strong_induction_on with
  | _ n ih =>
    rw [natDigits_eq]
    by_cases h : n < 10
    · rw [if_pos h]
      show 10 * 0 + digitVal (Nat.digitChar n) = n
      rw [digitVal_digitChar h]
      omega
    · rw [if_neg h, parseNat_append_singleton,
        ih (n / 10) (Nat.div_lt_self (by omega) (by omega)),
        digitVal_digitChar (Nat.mod_lt n (by omega))]
      omega

theorem parseNat_cons_zero (xs : List Char) :
    parseNat ('0' :: xs) = parseNat xs := by
  show List.foldl _ (10 * 0 + digitVal '0') xs = _
  norm_num [digitVal]
  rfl

theorem parseNat_pad2 (n : Nat) : parseNat (pad2 n) = n := by
  unfold pad2
  by_cases h : n < 10
  · rw [if_pos h, parseNat_cons_zero, parseNat_natDigits]
  · rw [if_neg h, parseNat_natDigits]

theorem mem_pad2_isDigit (n : Nat) : ∀ c ∈ pad2 n, c.isDigit = true := by
  unfold pad2
  by_cases h : n < 10 <;> simp only [h, if_true, if_false, if_pos, if_neg]
  · intro c hc
    rcases List.mem_cons.1 hc with rfl | hc
    · decide
    · exact mem_natDigits_isDigit n c hc
  · exact mem_natDigits_isDigit n

theorem pad2_length (n : Nat) :
    (pad2 n).length = max 2 (natDigits n).length := by
  unfold pad2
  by_cases h : n < 10
  · rw [if_pos h, natDigits_eq, if_pos h]
    simp
  · rw [if_neg h]
    have := natDigits_length_ge_two n (by omega)
    omega

theorem pad2_eq_natDigits {n : Nat} (h : 10 ≤ n) : pad2 n = natDigits n := by
  unfold pad2
  rw [if_neg (by omega)]

theorem natDigits_length_ge_three (n : Nat) (h : 100 ≤ n) :
    3 ≤ (natDigits n).length := by
  rw [natDigits_eq, if_neg (by omega)]
  have h2 : 10 ≤ n / 10 := by omega
  have := natDigits_length_ge_two (n / 10) h2
  simp only [List.length_append, List.length_cons, List.length_nil]
  omega

/-! ### Lemmas about extensions and generated names -/

theorem suffix_dotted (name : Name) : Dotted (suffix name) := by
  unfold suffix Dotted
  dsimp only
  split
  · exact Or.inl rfl
  split
  · exact Or.inl rfl
  split
  · exact Or.inl rfl
  · exact Or.inr ⟨_, rfl⟩

theorem lowerAscii_dotted {e : Name} (h : Dotted e) : Dotted (lowerAscii e) := by
  rcases h with rfl | ⟨r, rfl⟩
  · exact Or.inl rfl
  · exact Or.inr ⟨r.map Char.toLower, rfl⟩

theorem takeWhile_digits_append (ds e : List Char)
    (hd : ∀ c ∈ ds, c.isDigit = true) (he : Dotted e) :
    (ds ++ e).takeWhile Char.isDigit = ds := by
  induction ds with
  | nil =>
    rcases he with rfl | ⟨r, rfl⟩
    · rfl
    · simp [List.takeWhile]
  | cons d ds ih =>
    have hdd : d.isDigit = true := hd d (List.mem_cons_self d ds)
    simp only [List.cons_append, List.takeWhile_cons, hdd, if_true]
    rw [ih (fun c hc => hd c (List.mem_cons_of_mem d hc))]

/-- The numeric stem of a generated target name is the padded index. -/
theorem target_stem (i : Nat) (image : FPath) :
    (target i image).name.takeWhile Char.isDigit = pad2 i :=
  takeWhile_digits_append _ _ (mem_pad2_isDigit i)
    (lowerAscii_dotted (suffix_dotted image.name))

theorem genFrom_map_fst (i : Nat) (images : List FPath) :
    (genFrom i images).map Prod.fst = images := by
  induction images generalizing i with
  | nil => rfl
  | cons image rest ih => simp [genFrom, ih]

theorem genFrom_getElem? (i : Nat) (images : List FPath) (k : Nat) :
    (genFrom i images)[k]? = images[k]?.map (fun image => (image, target (i + k) image)) := by
  induction images generalizing i k with
  | nil => simp [genFrom]
  | cons image rest ih =>
    cases k with
    | zero => simp [genFrom]
    | succ k =>
      simp only [genFrom, List.getElem?_cons_succ, ih (i + 1) k]
      have : i + 1 + k = i + (k + 1) := by omega
      rw [this]

theorem genFrom_stems (i : Nat) (images : List FPath) :
    (genFrom i images).map (fun e => parseNat (e.2.name.takeWhile Char.isDigit)) =
      List.range' i images.length := by
  induction images generalizing i with
  | nil => rfl
  | cons image rest ih =>
    simp only [genFrom, List.map_cons, List.length_cons, List.range'_succ]
    rw [target_stem, parseNat_pad2, ih (i + 1)]

theorem genFrom_names_nodup (i : Nat) (images : List FPath) :
    ((genFrom i images).map (fun e => e.2.name)).Nodup := by
  have h1 : (((genFrom i images).map (fun e => e.2.name)).map
      (fun n => parseNat (n.takeWhile Char.isDigit))) = List.range' i images.length := by
    rw [List.map_map]
    exact genFrom_stems i images
  have h2 : (((genFrom i images).map (fun e => e.2.name)).map
      (fun n => parseNat (n.takeWhile Char.isDigit))).Nodup := by
    rw [h1]
    exact List.nodup_range' i images.length
  exact h2.of_map _

/-! ### Lemmas about the filesystem model -/

theorem FS.lookup_cons (e : FPath × Nat) (fs : FS) (q : FPath) :
    FS.lookup (e :: fs) q = if e.1 = q then some e.2 else fs.lookup q := rfl

theorem FS.erase_cons (e : FPath × Nat) (fs : FS) (q : FPath) :
    FS.erase (e :: fs) q = if e.1 = q then fs.erase q else e :: fs.erase q := rfl

theorem FS.lookup_erase_self (fs : FS) (q : FPath) :
    (fs.erase q).lookup q = none := by
  induction fs with
  | nil => rfl
  | cons e fs ih =>
    rw [FS.erase_cons]
    by_cases h : e.1 = q
    · rw [if_pos h]; exact ih
    · rw [if_neg h, FS.lookup_cons, if_neg h]
      exact ih

theorem FS.lookup_erase_ne (fs : FS) {q r : FPath} (h : r ≠ q) :
    (fs.erase q).lookup r = fs.lookup r := by
  induction fs with
  | nil => rfl
  | cons e fs ih =>
    rw [FS.erase_cons, FS.lookup_cons]
    by_cases he : e.1 = q
    · rw [if_pos he, if_neg (by rw [he]; exact fun hh => h hh.symm), ih]
    · rw [if_neg he, FS.lookup_cons]
      by_cases hr : e.1 = r
      · rw [if_pos hr, if_pos hr]
      · rw [if_neg hr, if_neg hr, ih]

theorem FS.lookup_insert_self (fs : FS) (q : FPath) (c : Nat) :
    (fs.insert q c).lookup q = some c := by
  show FS.lookup ((q, c) :: fs.erase q) q = some c
  rw [FS.lookup_cons, if_pos rfl]

theorem FS.lookup_insert_ne (fs : FS) {q r : FPath} (c : Nat) (h : r ≠ q) :
    (fs.insert q c).lookup r = fs.lookup r := by
  show FS.lookup ((q, c) :: fs.erase q) r = fs.lookup r
  rw [FS.lookup_cons, if_neg (fun hh => h hh.symm)]
  exact FS.lookup_erase_ne fs h

theorem FS.lookup_isSome_mem (fs : FS) (q : FPath)
    (h : (fs.lookup q).isSome = true) : q ∈ fs.map Prod.fst := by
  induction fs with
  | nil => simp [FS.lookup] at h
  | cons e fs ih =>
    rw [FS.lookup_cons] at h
    by_cases he : e.1 = q
    · exact he ▸ List.mem_cons_self _ _
    · rw [if_neg he] at h
      exact List.mem_cons_of_mem _ (ih h)

theorem FS.lookup_eq_none_of_not_mem (fs : FS) (q : FPath)
    (h : q ∉ fs.map Prod.fst) : fs.lookup q = none := by
  cases hq : fs.lookup q with
  | none => rfl
  | some c => exact absurd (FS.lookup_isSome_mem fs q (by rw [hq]; rfl)) h

/-! ### Lemmas about `rename` -/

theorem rename_some_iff {fs fs' : FS} {src dst : FPath} :
    rename fs src dst = some fs' ↔
      ∃ c, fs.lookup src = some c ∧ fs' = (fs.erase src).insert dst c := by
  unfold rename
  cases h : fs.lookup src with
  | none => simp
  | some c =>
    constructor
    · intro he
      exact ⟨c, rfl, (Option.some_inj.1 he).symm⟩
    · rintro ⟨c1, hc1, rfl⟩
      rw [Option.some_inj.1 hc1]

theorem rename_none_iff {fs : FS} {src dst : FPath} :
    rename fs src dst = none ↔ fs.lookup src = none := by
  unfold rename
  cases fs.lookup src <;> simp

theorem rename_lookup_dst {fs fs' : FS} {src dst : FPath}
    (h : rename fs src dst = some fs') :
    fs'.lookup dst = fs.lookup src := by
  obtain ⟨c, hc, rfl⟩ := rename_some_iff.1 h
  rw [FS.lookup_insert_self, hc]

theorem rename_lookup_other {fs fs' : FS} {src dst q : FPath}
    (h : rename fs src dst = some fs') (hq1 : q ≠ src) (hq2 : q ≠ dst) :
    fs'.lookup q = fs.lookup q := by
  obtain ⟨c, hc, rfl⟩ := rename_some_iff.1 h
  rw [FS.lookup_insert_ne _ _ hq2, FS.lookup_erase_ne _ hq1]

theorem rename_lookup_src {fs fs' : FS} {src dst : FPath}
    (h : rename fs src dst = some fs') (hne : src ≠ dst) :
    fs'.lookup src = none := by
  obtain ⟨c, hc, rfl⟩ := rename_some_iff.1 h
  rw [FS.lookup_insert_ne _ _ hne, FS.lookup_erase_self]

/-! ### Lemmas about temporary names -/

theorem isPrefixOf_append (xs ys : List Char) :
    xs.isPrefixOf (xs ++ ys) = true := by
  induction xs with
  | nil => simp [List.isPrefixOf]
  | cons a as ih => simp [List.isPrefixOf, ih]

theorem hasTag_tempPath (p : FPath) : hasTag (tempPath p).name = true :=
  isPrefixOf_append tempTag p.name

theorem tempPath_ne_of_no_tag {p q : FPath} (h : hasTag q.name = false) :
    tempPath p ≠ q := by
  intro he
  rw [← he, hasTag_tempPath p] at h
  cases h

theorem tempPath_inj {p q : FPath} (h : tempPath p = tempPath q) : p = q := by
  unfold tempPath at h
  cases p
  cases q
  simp_all

/-! ### Lemmas about the two rename phases -/

theorem stagePhase_nil (fs : FS) : stagePhase fs [] = .ok fs := rfl

theorem stagePhase_cons (fs : FS) (s t : FPath) (rest : List (FPath × FPath)) :
    stagePhase fs ((s, t) :: rest) =
      match rename fs s (tempPath s) with
      | none => .failed fs
      | some fs1 => stagePhase fs1 rest := rfl

theorem commitPhase_nil (fs : FS) (cnt : Nat) : commitPhase fs cnt [] = .ok fs cnt := rfl

theorem commitPhase_cons (fs : FS) (cnt : Nat) (s t : FPath)
    (rest : List (FPath × FPath)) :
    commitPhase fs cnt ((s, t) :: rest) =
      match rename fs (tempPath s) t with
      | none => .failed fs
      | some fs1 => commitPhase fs1 (cnt + 1) rest := rfl

theorem rename_files_eq (fs : FS) (plan : List (FPath × FPath)) :
    rename_files fs plan =
      match stagePhase fs plan with
      | .failed fs1 => .failed fs1
      | .ok fs1 => commitPhase fs1 0 plan := rfl

theorem rename_src_isSome {fs fs' : FS} {src dst : FPath}
    (h : rename fs src dst = some fs') : (fs.lookup src).isSome = true := by
  cases hl : fs.lookup src with
  | none => rw [rename_none_iff.2 hl] at h; cases h
  | some c => rfl

/-- A path with no temporary tag that is absent from the filesystem stays
absent through phase 1 (staging only ever creates tagged names), so it
cannot be a plan source of a staging pass that succeeds. -/
theorem stage_ok_not_mem_src {fs fs' : FS} {plan : List (FPath × FPath)} {q : FPath}
    (hok : stagePhase fs plan = .ok fs')
    (hq : hasTag q.name = false) (habs : fs.lookup q = none) :
    q ∉ plan.map Prod.fst := by
  induction plan generalizing fs with
  | nil => simp
  | cons e rest ih =>
    obtain ⟨s, t⟩ := e
    rw [stagePhase_cons] at hok
    cases hrn : rename fs s (tempPath s) with
    | none => rw [hrn] at hok; exact StageRes.noConfusion hok
    | some fs1 =>
      rw [hrn] at hok
      have hqs : q ≠ s := by
        rintro rfl
        rw [rename_none_iff.2 habs] at hrn
        cases hrn
      have habs1 : fs1.lookup q = none := by
        rw [rename_lookup_other hrn hqs (fun hh => by
          rw [hh, hasTag_tempPath s] at hq; cases hq)]
        exact habs
      intro hmem
      rcases List.mem_cons.1 hmem with hh | hh
      · exact hqs hh
      · exact ih hok habs1 hh

/-- If phase 1 succeeds, no tag-free file name pre-exists, and no plan
source carries the tag, then the plan sources are pairwise distinct. -/
theorem stage_ok_srcs_nodup {fs fs' : FS} {plan : List (FPath × FPath)}
    (hok : stagePhase fs plan = .ok fs')
    (hnt : ∀ e ∈ plan, hasTag e.1.name = false)
    (htmp : ∀ e ∈ plan, fs.lookup (tempPath e.1) = none) :
    (plan.map Prod.fst).Nodup := by
  induction plan generalizing fs with
  | nil => simp
  | cons e rest ih =>
    obtain ⟨s, t⟩ := e
    rw [stagePhase_cons] at hok
    cases hrn : rename fs s (tempPath s) with
    | none => rw [hrn] at hok; exact StageRes.noConfusion hok
    | some fs1 =>
      rw [hrn] at hok
      have hsnt : hasTag s.name = false := hnt (s, t) (List.mem_cons_self _ _)
      have hs_ne : s ≠ tempPath s := fun hh => (tempPath_ne_of_no_tag hsnt) hh.symm
      have habs1 : fs1.lookup s = none := rename_lookup_src hrn hs_ne
      have hnotmem : s ∉ rest.map Prod.fst := stage_ok_not_mem_src hok hsnt habs1
      have hrest : (rest.map Prod.fst).Nodup := by
        refine ih hok (fun e he => hnt e (List.mem_cons_of_mem _ he)) ?_
        intro e he
        have he1 : e.1 ≠ s := by
          intro hh
          exact hnotmem (hh ▸ List.mem_map_of_mem Prod.fst he)
        rw [rename_lookup_other hrn
          (tempPath_ne_of_no_tag hsnt)
          (fun hh => he1 (tempPath_inj hh))]
        exact htmp e (List.mem_cons_of_mem _ he)
      rw [List.map_cons]
      exact List.nodup_cons.2 ⟨hnotmem, hrest⟩

/-- Characterization of a successful phase 1: every plan source existed,
its content now sits at its temporary name, the source name is vacated,
and every other path is untouched. -/
theorem stage_ok_lookup {fs fs' : FS} {plan : List (FPath × FPath)}
    (hok : stagePhase fs plan = .ok fs')
    (hnt : ∀ e ∈ plan, hasTag e.1.name = false)
    (htmp : ∀ e ∈ plan, fs.lookup (tempPath e.1) = none)
    (hnd : (plan.map Prod.fst).Nodup) :
    (∀ e ∈ plan, fs'.lookup (tempPath e.1) = fs.lookup e.1 ∧
      (fs.lookup e.1).isSome = true ∧ fs'.lookup e.1 = none)
    ∧ (∀ q : FPath, q ∉ plan.map Prod.fst →
        (∀ e ∈ plan, q ≠ tempPath e.1) → fs'.lookup q = fs.lookup q) := by
  induction plan generalizing fs with
  | nil =>
    rw [stagePhase_nil] at hok
    injection hok with hok
    subst hok
    exact ⟨by simp, fun q _ _ => rfl⟩
  | cons e rest ih =>
    obtain ⟨s, t⟩ := e
    rw [stagePhase_cons] at hok
    cases hrn : rename fs s (tempPath s) with
    | none => rw [hrn] at hok; exact StageRes.noConfusion hok
    | some fs1 =>
      rw [hrn] at hok
      have hsnt : hasTag s.name = false := hnt (s, t) (List.mem_cons_self _ _)
      have hs_ne : s ≠ tempPath s := fun hh => (tempPath_ne_of_no_tag hsnt) hh.symm
      have hnd1 : s ∉ rest.map Prod.fst ∧ (rest.map Prod.fst).Nodup := by
        simpa using hnd
      have hrest_nt : ∀ e ∈ rest, hasTag e.1.name = false :=
        fun e he => hnt e (List.mem_cons_of_mem _ he)
      have hrest_tmp : ∀ e ∈ rest, fs1.lookup (tempPath e.1) = none := by
        intro e he
        have he1 : e.1 ≠ s := by
          intro hh
          exact hnd1.1 (hh ▸ List.mem_map_of_mem Prod.fst he)
        rw [rename_lookup_other hrn
          (tempPath_ne_of_no_tag hsnt)
          (fun hh => he1 (tempPath_inj hh))]
        exact htmp e (List.mem_cons_of_mem _ he)
      obtain ⟨ihMem, ihOther⟩ := ih hok hrest_nt hrest_tmp hnd1.2
      have htempS_not_src : tempPath s ∉ rest.map Prod.fst := by
        intro hmem
        obtain ⟨e, he, hh⟩ := List.mem_map.1 hmem
        have := hrest_nt e he
        rw [hh, hasTag_tempPath s] at this
        cases this
      have htempS_not_tmp : ∀ e ∈ rest, tempPath s ≠ tempPath e.1 := by
        intro e he hh
        exact hnd1.1 ((tempPath_inj hh) ▸ List.mem_map_of_mem Prod.fst he)
      have hs_not_tmp : ∀ e ∈ rest, s ≠ tempPath e.1 :=
        fun e he hh => (tempPath_ne_of_no_tag hsnt) hh.symm
      constructor
      · intro e he
        rcases List.mem_cons.1 he with rfl | he
        · refine ⟨?_, rename_src_isSome hrn, ?_⟩
          · rw [ihOther (tempPath s) htempS_not_src htempS_not_tmp,
              rename_lookup_dst hrn]
          · rw [ihOther s hnd1.1 hs_not_tmp]
            exact rename_lookup_src hrn hs_ne
        · obtain ⟨h1, h2, h3⟩ := ihMem e he
          have he1 : e.1 ≠ s := by
            intro hh
            exact hnd1.1 (hh ▸ List.mem_map_of_mem Prod.fst he)
          have hfs1 : fs1.lookup e.1 = fs.lookup e.1 :=
            rename_lookup_other hrn he1
              (fun hh => (tempPath_ne_of_no_tag (hrest_nt e he)) hh.symm)
          exact ⟨by rw [h1, hfs1], by rw [← hfs1]; exact h2, h3⟩
      · intro q hq1 hq2
        have hq1' : q ∉ rest.map Prod.fst :=
          fun hh => hq1 (List.mem_cons_of_mem _ hh)
        have hq2' : ∀ e ∈ rest, q ≠ tempPath e.1 :=
          fun e he => hq2 e (List.mem_cons_of_mem _ he)
        have hqs : q ≠ s := by
          intro hh
          exact hq1 (hh ▸ List.mem_cons_self _ _)
        have hqts : q ≠ tempPath s := hq2 (s, t) (List.mem_cons_self _ _)
        rw [ihOther q hq1' hq2', rename_lookup_other hrn hqs hqts]

/-- Characterization of a successful phase 2: the count grows by the plan
length, every target receives the content of its temporary name, and every
path that is neither a target nor a temporary name is untouched. -/
theorem commit_ok_lookup {fs fs' : FS} {plan : List (FPath × FPath)} {cnt n : Nat}
    (hok : commitPhase fs cnt plan = .ok fs' n)
    (htd : (plan.map Prod.snd).Nodup)
    (hnt : ∀ e ∈ plan, hasTag e.2.name = false)
    (hnds : (plan.map Prod.fst).Nodup) :
    n = cnt + plan.length
    ∧ (∀ e ∈ plan, fs'.lookup e.2 = fs.lookup (tempPath e.1))
    ∧ (∀ q : FPath, (∀ e ∈ plan, q ≠ e.2 ∧ q ≠ tempPath e.1) →
        fs'.lookup q = fs.lookup q) := by
  induction plan generalizing fs cnt with
  | nil =>
    rw [commitPhase_nil] at hok
    injection hok with h1 h2
    subst h1
    subst h2
    exact ⟨rfl, by simp, fun q _ => rfl⟩
  | cons e rest ih =>
    obtain ⟨s, t⟩ := e
    rw [commitPhase_cons] at hok
    cases hrn : rename fs (tempPath s) t with
    | none => rw [hrn] at hok; exact RunRes.noConfusion hok
    | some fs1 =>
      rw [hrn] at hok
      have htd1 : t ∉ rest.map Prod.snd ∧ (rest.map Prod.snd).Nodup := by
        have := htd
        rw [List.map_cons] at this
        exact ⟨(List.nodup_cons.1 this).1, (List.nodup_cons.1 this).2⟩
      have hnds1 : s ∉ rest.map Prod.fst ∧ (rest.map Prod.fst).Nodup := by
        have := hnds
        rw [List.map_cons] at this
        exact ⟨(List.nodup_cons.1 this).1, (List.nodup_cons.1 this).2⟩
      have htnt : hasTag t.name = false := hnt (s, t) (List.mem_cons_self _ _)
      obtain ⟨ihn, ihMem, ihOther⟩ := ih hok htd1.2
        (fun e he => hnt e (List.mem_cons_of_mem _ he)) hnds1.2
      refine ⟨by rw [ihn]; simp; omega, ?_, ?_⟩
      · intro e he
        rcases List.mem_cons.1 he with rfl | he
        · have ht_other : ∀ e ∈ rest, t ≠ e.2 ∧ t ≠ tempPath e.1 := by
            intro e he
            constructor
            · intro hh
              exact htd1.1 (hh ▸ List.mem_map_of_mem Prod.snd he)
            · exact fun hh => (tempPath_ne_of_no_tag htnt) hh.symm
          rw [ihOther t ht_other, rename_lookup_dst hrn]
        · have he1 : e.1 ≠ s := by
            intro hh
            exact hnds1.1 (hh ▸ List.mem_map_of_mem Prod.fst he)
          rw [ihMem e he,
            rename_lookup_other hrn
              (fun hh => he1 (tempPath_inj hh))
              (tempPath_ne_of_no_tag htnt)]
      · intro q hq
        have hq' : ∀ e ∈ rest, q ≠ e.2 ∧ q ≠ tempPath e.1 :=
          fun e he => hq e (List.mem_cons_of_mem _ he)
        have hqh := hq (s, t) (List.mem_cons_self _ _)
        rw [ihOther q hq', rename_lookup_other hrn hqh.2 hqh.1]

theorem stagePhase_append (fs : FS) (xs ys : List (FPath × FPath)) :
    stagePhase fs (xs ++ ys) =
      match stagePhase fs xs with
      | .failed f => .failed f
      | .ok f => stagePhase f ys := by
  induction xs generalizing fs with
  | nil => rfl
  | cons e rest ih =>
    obtain ⟨s, t⟩ := e
    rw [List.cons_append, stagePhase_cons, stagePhase_cons]
    cases rename fs s (tempPath s) with
    | none => rfl
    | some fs1 => exact ih fs1

theorem commitPhase_append (fs : FS) (cnt : Nat) (xs ys : List (FPath × FPath)) :
    commitPhase fs cnt (xs ++ ys) =
      match commitPhase fs cnt xs with
      | .failed f => .failed f
      | .ok f c => commitPhase f c ys := by
  induction xs generalizing fs cnt with
  | nil => rfl
  | cons e rest ih =>
    obtain ⟨s, t⟩ := e
    rw [List.cons_append, commitPhase_cons, commitPhase_cons]
    cases rename fs (tempPath s) t with
    | none => rfl
    | some fs1 => exact ih fs1 (cnt + 1)

/-- Files mentioned in the filesystem never carry the tag, so any tagged
path is absent. -/
theorem lookup_none_of_tag {fs : FS} {q : FPath}
    (hpre : ∀ e ∈ fs, hasTag e.1.name = false) (hq : hasTag q.name = true) :
    fs.lookup q = none := by
  cases hl : fs.lookup q with
  | none => rfl
  | some c =>
    exfalso
    have hmem := FS.lookup_isSome_mem fs q (by rw [hl]; rfl)
    obtain ⟨e, he, hh⟩ := List.mem_map.1 hmem
    have := hpre e he
    rw [hh, hq] at this
    cases this

/-! ### Claim C1 -/

/-- C1 (amended): for every rename plan whose source paths all exist in the
directory, whose target paths are pairwise distinct, and whose target names
do not carry the temporary marker, and assuming no file named with the
temporary marker pre-exists, after `rename_files` completes without error
every source file's content resides at exactly its planned target path and
the returned count equals the number of plan entries. -/
theorem rename_files_correct (fs0 fs1 : FS) (plan : List (FPath × FPath)) (n : Nat)
    (hpre : ∀ e ∈ fs0, hasTag e.1.name = false)
    (hsrc : ∀ e ∈ plan, (FS.lookup fs0 e.1).isSome = true)
    (htd : (plan.map Prod.snd).Nodup)
    (hnt : ∀ e ∈ plan, hasTag e.2.name = false)
    (hok : rename_files fs0 plan = .ok fs1 n) :
    n = plan.length ∧ ∀ e ∈ plan, FS.lookup fs1 e.2 = FS.lookup fs0 e.1 := by
  have hsnt : ∀ e ∈ plan, hasTag e.1.name = false := by
    intro e he
    have hmem := FS.lookup_isSome_mem fs0 e.1 (hsrc e he)
    obtain ⟨x, hx, hh⟩ := List.mem_map.1 hmem
    exact hh ▸ hpre x hx
  have htmp : ∀ e ∈ plan, FS.lookup fs0 (tempPath e.1) = none :=
    fun e _ => lookup_none_of_tag hpre (hasTag_tempPath e.1)
  rw [rename_files_eq] at hok
  cases hS : stagePhase fs0 plan with
  | failed f => rw [hS] at hok; exact RunRes.noConfusion hok
  | ok fsS =>
    rw [hS] at hok
    have hnds := stage_ok_srcs_nodup hS hsnt htmp
    obtain ⟨stMem, stOther⟩ := stage_ok_lookup hS hsnt htmp hnds
    obtain ⟨hn, cMem, cOther⟩ := commit_ok_lookup hok htd hnt hnds
    refine ⟨by omega, ?_⟩
    intro e he
    rw [cMem e he, (stMem e he).1]

/-- C1 witness: the two-file swap `01.heic -> 02.heic`, `02.heic -> 01.heic`
satisfies every hypothesis, and applying the theorem shows the contents are
exchanged with a reported count of 2 and no data loss. -/
theorem rename_files_correct_witness :
    (∀ e ∈ swapFS, hasTag e.1.name = false) ∧
    (∀ e ∈ swapPlan, (FS.lookup swapFS e.1).isSome = true) ∧
    (swapPlan.map Prod.snd).Nodup ∧
    (∀ e ∈ swapPlan, hasTag e.2.name = false) ∧
    rename_files swapFS swapPlan = .ok swapFinal 2 ∧
    (2 = swapPlan.length ∧
      ∀ e ∈ swapPlan, FS.lookup swapFinal e.2 = FS.lookup swapFS e.1) ∧
    FS.lookup swapFinal (dpath "02.heic") = some 10 ∧
    FS.lookup swapFinal (dpath "01.heic") = some 20 :=
  ⟨by decide, by decide, by decide, by decide, by decide,
    rename_files_correct swapFS swapFinal swapPlan 2
      (by decide) (by decide) (by decide) (by decide) (by decide),
    by decide, by decide⟩

/-- C1 counterexample: the claim as stated is false.  `dupPlan` has target
names disjoint from its source names, no temporary-tagged file pre-exists
in `dupFS`, and `rename_files` completes without error returning count 2 —
yet the first entry's content (that of `a.jpg`) does not reside at its
planned target `c.jpg`: it was silently overwritten by the second entry. -/
theorem rename_files_claim_counterexample :
    (∀ e ∈ dupFS, hasTag e.1.name = false) ∧
    (∀ e ∈ dupPlan, e.2 ∉ dupPlan.map Prod.fst) ∧
    dupPlan[0]? = some (dpath "a.jpg", dpath "c.jpg") ∧
    rename_files dupFS dupPlan = .ok dupFinal 2 ∧
    FS.lookup dupFS (dpath "a.jpg") = some 0 ∧
    ¬ FS.lookup dupFinal (dpath "c.jpg") = some 0 := by
  decide

/-! ### Claim C2 -/

/-- C2 (amended): provided no file named with the temporary marker
pre-exists in the directory and the plan's source paths are pairwise
distinct and untagged, every phase-1 staging step renames onto a path that
is absent at that moment — staging never overwrites any existing file. -/
theorem stage_never_overwrites (fs fsMid : FS)
    (plan pre rest : List (FPath × FPath)) (s t : FPath)
    (hplan : plan = pre ++ (s, t) :: rest)
    (hpre : ∀ e ∈ fs, hasTag e.1.name = false)
    (hsnt : ∀ e ∈ plan, hasTag e.1.name = false)
    (hnd : (plan.map Prod.fst).Nodup)
    (hstage : stagePhase fs pre = .ok fsMid) :
    FS.lookup fsMid (tempPath s) = none := by
  subst hplan
  rw [show ((pre ++ (s, t) :: rest).map Prod.fst) =
    pre.map Prod.fst ++ s :: rest.map Prod.fst by simp] at hnd
  rw [List.nodup_append] at hnd
  obtain ⟨hnd_pre, _, hdisj⟩ := hnd
  have hs_notin_pre : s ∉ pre.map Prod.fst :=
    fun hh => hdisj hh (List.mem_cons_self _ _)
  have hpre_nt : ∀ e ∈ pre, hasTag e.1.name = false :=
    fun e he => hsnt e (by simp [he])
  have hpre_tmp : ∀ e ∈ pre, FS.lookup fs (tempPath e.1) = none :=
    fun e _ => lookup_none_of_tag hpre (hasTag_tempPath e.1)
  obtain ⟨_, stOther⟩ := stage_ok_lookup hstage hpre_nt hpre_tmp hnd_pre
  have h1 : tempPath s ∉ pre.map Prod.fst := by
    intro hmem
    obtain ⟨e, he, hh⟩ := List.mem_map.1 hmem
    have := hpre_nt e he
    rw [hh, hasTag_tempPath] at this
    cases this
  have h2 : ∀ e ∈ pre, tempPath s ≠ tempPath e.1 := by
    intro e he hh
    exact hs_notin_pre ((tempPath_inj hh) ▸ List.mem_map_of_mem Prod.fst he)
  rw [stOther (tempPath s) h1 h2]
  exact lookup_none_of_tag hpre (hasTag_tempPath s)

/-- C2 witness: a concrete two-entry plan over a clean directory; after
staging the first entry, the temporary name of the second entry is still
absent. -/
theorem stage_never_overwrites_witness :
    stagePhase [(dpath "x.jpg", 5), (dpath "y.jpg", 6)]
        [(dpath "x.jpg", dpath "01.jpg")] =
      .ok [(dpath "__temp_rename_x.jpg", 5), (dpath "y.jpg", 6)] ∧
    FS.lookup [(dpath "__temp_rename_x.jpg", 5), (dpath "y.jpg", 6)]
      (tempPath (dpath "y.jpg")) = none :=
  ⟨by decide,
    stage_never_overwrites
      [(dpath "x.jpg", 5), (dpath "y.jpg", 6)]
      [(dpath "__temp_rename_x.jpg", 5), (dpath "y.jpg", 6)]
      [(dpath "x.jpg", dpath "01.jpg"), (dpath "y.jpg", dpath "02.jpg")]
      [(dpath "x.jpg", dpath "01.jpg")] []
      (dpath "y.jpg") (dpath "02.jpg")
      (by decide) (by decide) (by decide) (by decide) (by decide)⟩

/-- C2 counterexample: the claim as stated (for every directory state,
including one already containing a file named with the temporary marker)
is false.  In `clashFS` the file `__temp_rename_a.jpg` pre-exists, is not a
plan source, and the phase-1 staging of `a.jpg` renames onto it, silently
destroying its content; the whole run then completes without error. -/
theorem stage_overwrite_counterexample :
    FS.lookup clashFS (tempPath (dpath "a.jpg")) = some 0 ∧
    (dpath "__temp_rename_a.jpg") ∉ clashPlan.map Prod.fst ∧
    rename clashFS (dpath "a.jpg") (tempPath (dpath "a.jpg")) =
      some [(dpath "__temp_rename_a.jpg", 1)] ∧
    rename_files clashFS clashPlan = .ok [(dpath "b.jpg", 1)] 1 ∧
    (∀ e ∈ [(dpath "b.jpg", 1)], ¬ e.2 = 0) := by
  decide

/-! ### Claim C10 -/

/-- C10: within a single call to `rename_files`, the map from source path
to temporary path is injective: pairwise distinct plan sources receive
pairwise distinct temporary names, so no staging step can overwrite a file
staged earlier in the same run. -/
theorem temp_names_injective (plan : List (FPath × FPath))
    (hnd : (plan.map Prod.fst).Nodup) :
    (plan.map (fun e => tempPath e.1)).Nodup := by
  have hmm : plan.map (fun e => tempPath e.1) = (plan.map Prod.fst).map tempPath := by
    rw [List.map_map]
    rfl
  rw [hmm]
  exact hnd.map (fun a b h => tempPath_inj h)

/-- C10 witness: a concrete two-entry plan with distinct sources has
distinct temporary names. -/
theorem temp_names_injective_witness :
    (([(dpath "a.jpg", dpath "01.jpg"), (dpath "b.jpg", dpath "02.jpg")].map
      Prod.fst).Nodup : Prop) ∧
    ([(dpath "a.jpg", dpath "01.jpg"), (dpath "b.jpg", dpath "02.jpg")].map
      (fun e => tempPath e.1)).Nodup :=
  ⟨by decide,
    temp_names_injective
      [(dpath "a.jpg", dpath "01.jpg"), (dpath "b.jpg", dpath "02.jpg")]
      (by decide)⟩

/-! ### Claim C5 -/

/-- C5: if any rename in phase 1 or phase 2 raises an OS-level error, the
operation stops at that entry and propagates the error: `rename_files`
returns the filesystem exactly as it stood at the failure (no retry, no
continuation, no rollback — files staged earlier in phase 1 are still at
their temporary names, and for a phase-2 failure files committed earlier
are at their final names inside that state), and the caller side of `main`
exits with code 1. -/
theorem rename_files_error_propagation
    (fs fsMid fsS : FS) (plan pre rest : List (FPath × FPath)) (s t : FPath)
    (cnt : Nat) (hplan : plan = pre ++ (s, t) :: rest) :
    ((stagePhase fs pre = .ok fsMid) → (rename fsMid s (tempPath s) = none) →
      rename_files fs plan = .failed fsMid ∧ runRenames fs plan = (1, fsMid) ∧
      ((∀ e ∈ fs, hasTag e.1.name = false) →
       (∀ e ∈ plan, hasTag e.1.name = false) →
       (plan.map Prod.fst).Nodup →
       ∀ e ∈ pre, FS.lookup fsMid (tempPath e.1) = FS.lookup fs e.1))
    ∧ ((stagePhase fs plan = .ok fsS) → (commitPhase fsS 0 pre = .ok fsMid cnt) →
      (rename fsMid (tempPath s) t = none) →
      rename_files fs plan = .failed fsMid ∧ runRenames fs plan = (1, fsMid)) := by
  constructor
  · intro h1 h2
    have hstage : stagePhase fs plan = .failed fsMid := by
      rw [hplan, stagePhase_append, h1]
      show stagePhase fsMid ((s, t) :: rest) = _
      rw [stagePhase_cons, h2]
    have hrf : rename_files fs plan = .failed fsMid := by
      rw [rename_files_eq, hstage]
    refine ⟨hrf, by unfold runRenames; rw [hrf], ?_⟩
    intro hpre hsnt hnd
    have hpre_nt : ∀ e ∈ pre, hasTag e.1.name = false :=
      fun e he => hsnt e (by rw [hplan]; exact List.mem_append_left _ he)
    have hpre_tmp : ∀ e ∈ pre, FS.lookup fs (tempPath e.1) = none :=
      fun e _ => lookup_none_of_tag hpre (hasTag_tempPath e.1)
    have hnd_pre : (pre.map Prod.fst).Nodup := by
      rw [hplan, List.map_append] at hnd
      exact hnd.of_append_left
    obtain ⟨stMem, _⟩ := stage_ok_lookup h1 hpre_nt hpre_tmp hnd_pre
    exact fun e he => (stMem e he).1
  · intro h1 h2 h3
    have hcommit : commitPhase fsS 0 plan = .failed fsMid := by
      rw [hplan, commitPhase_append, h2]
      show commitPhase fsMid cnt ((s, t) :: rest) = _
      rw [commitPhase_cons, h3]
    have hrf : rename_files fs plan = .failed fsMid := by
      rw [rename_files_eq, h1]
      show commitPhase fsS 0 plan = _
      exact hcommit
    exact ⟨hrf, by unfold runRenames; rw [hrf]⟩

/-- C5 witness: both failure modes instantiated concretely.  Phase 1: with
only `a.jpg` on disk, the plan `[a.jpg -> 01.jpg, b.jpg -> 02.jpg]` fails
while staging the missing `b.jpg`, leaving `a.jpg` at its temporary name
and exiting 1.  Phase 2: a plan whose second source is the first source's
temporary name steals the staged file, so the first commit fails and the
state at failure is returned with exit code 1. -/
theorem rename_files_error_propagation_witness :
    (stagePhase [(dpath "a.jpg", 0)] [(dpath "a.jpg", dpath "01.jpg")] =
      .ok [(dpath "__temp_rename_a.jpg", 0)] ∧
     rename [(dpath "__temp_rename_a.jpg", 0)] (dpath "b.jpg")
       (tempPath (dpath "b.jpg")) = none ∧
     rename_files [(dpath "a.jpg", 0)]
       [(dpath "a.jpg", dpath "01.jpg"), (dpath "b.jpg", dpath "02.jpg")] =
       .failed [(dpath "__temp_rename_a.jpg", 0)] ∧
     runRenames [(dpath "a.jpg", 0)]
       [(dpath "a.jpg", dpath "01.jpg"), (dpath "b.jpg", dpath "02.jpg")] =
       (1, [(dpath "__temp_rename_a.jpg", 0)]) ∧
     (∀ e ∈ [(dpath "a.jpg", dpath "01.jpg")],
       FS.lookup [(dpath "__temp_rename_a.jpg", 0)] (tempPath e.1) =
         FS.lookup [(dpath "a.jpg", 0)] e.1))
    ∧ (rename_files [(dpath "a.jpg", 7)]
        [(dpath "a.jpg", dpath "c.jpg"),
         (dpath "__temp_rename_a.jpg", dpath "d.jpg")] =
        .failed [(dpath "__temp_rename___temp_rename_a.jpg", 7)] ∧
       runRenames [(dpath "a.jpg", 7)]
        [(dpath "a.jpg", dpath "c.jpg"),
         (dpath "__temp_rename_a.jpg", dpath "d.jpg")] =
        (1, [(dpath "__temp_rename___temp_rename_a.jpg", 7)])) := by
  constructor
  · have h := (rename_files_error_propagation
      [(dpath "a.jpg", 0)] [(dpath "__temp_rename_a.jpg", 0)] []
      [(dpath "a.jpg", dpath "01.jpg"), (dpath "b.jpg", dpath "02.jpg")]
      [(dpath "a.jpg", dpath "01.jpg")] []
      (dpath "b.jpg") (dpath "02.jpg") 0 (by decide)).1
      (by decide) (by decide)
    exact ⟨by decide, by decide, h.1, h.2.1,
      h.2.2 (by decide) (by decide) (by decide)⟩
  · have h := (rename_files_error_propagation
      [(dpath "a.jpg", 7)]
      [(dpath "__temp_rename___temp_rename_a.jpg", 7)]
      [(dpath "__temp_rename___temp_rename_a.jpg", 7)]
      [(dpath "a.jpg", dpath "c.jpg"),
       (dpath "__temp_rename_a.jpg", dpath "d.jpg")]
      []
      [(dpath "__temp_rename_a.jpg", dpath "d.jpg")]
      (dpath "a.jpg") (dpath "c.jpg") 0 (by decide)).2
      (by decide) (by decide) (by decide)
    exact h

/-! ### Claim C3 -/

/-- C3: for every list of discovered images, `generate_new_names` produces
exactly one (source, target) pair per source in input order; the pair at
position `k` pairs the `k`-th source with the target built in its parent
directory from index `k + 1` and the lowercased extension; the numeric
stems are exactly `1..N`; target names are pairwise distinct; the sources
are exactly the input list; and the empty list yields the empty plan. -/
theorem generate_new_names_spec (images : List FPath) :
    (generate_new_names images).map Prod.fst = images ∧
    (generate_new_names images).length = images.length ∧
    (∀ k : Nat, (generate_new_names images)[k]? =
      images[k]?.map (fun image => (image, target (k + 1) image))) ∧
    ((generate_new_names images).map (fun e => e.2.name)).Nodup ∧
    ((generate_new_names images).map
      (fun e => parseNat (e.2.name.takeWhile Char.isDigit)) =
      List.range' 1 images.length) ∧
    (images = [] → generate_new_names images = []) := by
  refine ⟨genFrom_map_fst 1 images, ?_, ?_, genFrom_names_nodup 1 images,
    genFrom_stems 1 images, ?_⟩
  · have h := congrArg List.length (genFrom_map_fst 1 images)
    simpa using h
  · intro k
    have h := genFrom_getElem? 1 images k
    rw [Nat.add_comm 1 k] at h
    exact h
  · rintro rfl
    rfl

/-- C3 witness: two concrete images; the plan pairs them in order with
targets `01.heic` (note the `.HEIC` source normalized to lowercase) and
`02.jpg`, and stems `[1, 2]`. -/
theorem generate_new_names_spec_witness :
    ((generate_new_names [dpath "b.HEIC", dpath "a.jpg"]).map Prod.fst =
      [dpath "b.HEIC", dpath "a.jpg"]) ∧
    ((generate_new_names [dpath "b.HEIC", dpath "a.jpg"]).map
      (fun e => parseNat (e.2.name.takeWhile Char.isDigit)) = [1, 2]) ∧
    (generate_new_names [dpath "b.HEIC", dpath "a.jpg"])[0]? =
      some (dpath "b.HEIC", dpath "01.heic") :=
  ⟨(generate_new_names_spec [dpath "b.HEIC", dpath "a.jpg"]).1,
   by
    have h := (generate_new_names_spec [dpath "b.HEIC", dpath "a.jpg"]).2.2.2.2.1
    simpa using h,
   by
    have h := (generate_new_names_spec [dpath "b.HEIC", dpath "a.jpg"]).2.2.1 0
    rw [h]
    decide⟩

/-! ### Claim C4 -/

/-- C4: the numeric part of a generated target name is exactly the decimal
representation of the 1-based index, zero-padded to a minimum of two
digits, growing naturally beyond two digits for indices of 100 and more
(never truncated); in particular 14 files yield stems `01` through `14`. -/
theorem pad2_spec (i : Nat) :
    ((∀ image : FPath, (target i image).name.takeWhile Char.isDigit = pad2 i) ∧
     parseNat (pad2 i) = i ∧
     (∀ c ∈ pad2 i, c.isDigit = true) ∧
     (pad2 i).length = max 2 (natDigits i).length ∧
     (100 ≤ i → pad2 i = natDigits i ∧ 3 ≤ (pad2 i).length)) ∧
    (List.range 14).map (fun k => pad2 (k + 1)) =
      ["01".data, "02".data, "03".data, "04".data, "05".data, "06".data,
       "07".data, "08".data, "09".data, "10".data, "11".data, "12".data,
       "13".data, "14".data] := by
  refine ⟨⟨fun image => target_stem i image, parseNat_pad2 i,
    mem_pad2_isDigit i, pad2_length i, ?_⟩, by decide⟩
  intro h
  have h1 := pad2_eq_natDigits (show 10 ≤ i by omega)
  exact ⟨h1, by rw [h1]; exact natDigits_length_ge_three i h⟩

/-- C4 witness: index 123 round-trips through the stem, is not padded (it
already has three digits) and is not truncated. -/
theorem pad2_spec_witness :
    100 ≤ 123 ∧ parseNat (pad2 123) = 123 ∧ pad2 123 = natDigits 123 ∧
      3 ≤ (pad2 123).length :=
  ⟨by decide, ((pad2_spec 123).1).2.1,
    (((pad2_spec 123).1).2.2.2.2 (by decide)).1,
    (((pad2_spec 123).1).2.2.2.2 (by decide)).2⟩

/-! ### Claim C7 -/

/-- C7: `get_creation_date` follows the documented fallback chain: the
file birth time when the platform exposes one, otherwise the change time
on Windows (where it means creation time), otherwise the last-modification
time. -/
theorem get_creation_date_spec (osNt : Bool) (st : Stat) :
    (∀ b, st.birthtime = some b → get_creation_date osNt st = b) ∧
    (st.birthtime = none → osNt = true → get_creation_date osNt st = st.ctime) ∧
    (st.birthtime = none → osNt = false → get_creation_date osNt st = st.mtime) := by
  obtain ⟨bt, ct, mt⟩ := st
  refine ⟨?_, ?_, ?_⟩
  · rintro b rfl
    rfl
  · rintro rfl rfl
    rfl
  · rintro rfl rfl
    rfl

/-- C7 witness: concrete stat records exercising all three branches. -/
theorem get_creation_date_spec_witness :
    (Stat.birthtime ⟨some 3, 5, 7⟩ = some 3 ∧
      get_creation_date false ⟨some 3, 5, 7⟩ = 3) ∧
    (Stat.birthtime ⟨none, 5, 7⟩ = none ∧
      get_creation_date true ⟨none, 5, 7⟩ = 5 ∧
      get_creation_date false ⟨none, 5, 7⟩ = 7) :=
  ⟨⟨rfl, (get_creation_date_spec false ⟨some 3, 5, 7⟩).1 3 rfl⟩,
   ⟨rfl, (get_creation_date_spec true ⟨none, 5, 7⟩).2.1 rfl rfl,
    (get_creation_date_spec false ⟨none, 5, 7⟩).2.2 rfl rfl⟩⟩

/-! ### Claim C6 -/

theorem dateLE_trans (osNt : Bool) : ∀ a b c : Entry,
    dateLE osNt a b → dateLE osNt b c → dateLE osNt a c := by
  intro a b c hab hbc
  simp only [dateLE, decide_eq_true_eq] at hab hbc ⊢
  omega

theorem dateLE_total (osNt : Bool) : ∀ a b : Entry,
    dateLE osNt a b || dateLE osNt b a := by
  intro a b
  simp only [dateLE, Bool.or_eq_true, decide_eq_true_eq]
  omega

/-- C6: `find_images` returns exactly the direct entries that are regular
files with a recognized extension (case-insensitively one of `.jpg`,
`.jpeg`, `.png`, `.heic`) — files with unrecognized extensions never
appear — sorted ascending by the derived creation timestamp with a stable
sort: entries with equal timestamps keep the underlying listing order. -/
theorem find_images_spec (osNt : Bool) (entries : List Entry) :
    (find_images osNt entries).Perm (entries.filter is_image) ∧
    (∀ x ∈ find_images osNt entries, x ∈ entries ∧ is_image x = true) ∧
    (find_images osNt entries).Pairwise
      (fun a b => get_creation_date osNt a.st ≤ get_creation_date osNt b.st) ∧
    (∀ tstamp : Nat,
      (find_images osNt entries).filter
        (fun e => decide (get_creation_date osNt e.st = tstamp)) =
      (entries.filter is_image).filter
        (fun e => decide (get_creation_date osNt e.st = tstamp))) := by
  have hperm : (find_images osNt entries).Perm (entries.filter is_image) :=
    List.mergeSort_perm _ _
  refine ⟨hperm, ?_, ?_, ?_⟩
  · intro x hx
    have hx' := hperm.mem_iff.1 hx
    exact ⟨(List.mem_filter.1 hx').1, (List.mem_filter.1 hx').2⟩
  · have h := List.sorted_mergeSort
      (dateLE_trans osNt) (dateLE_total osNt) (entries.filter is_image)
    exact h.imp (fun hab => by simpa [dateLE] using hab)
  · intro tstamp
    have hcp : ∀ x ∈ (entries.filter is_image).filter
        (fun e => decide (get_creation_date osNt e.st = tstamp)),
        (fun e => decide (get_creation_date osNt e.st = tstamp)) x = true :=
      fun x hx => (List.mem_filter.1 hx).2
    have hcpair : ((entries.filter is_image).filter
        (fun e => decide (get_creation_date osNt e.st = tstamp))).Pairwise
        (fun a b => dateLE osNt a b) := by
      apply List.pairwise_of_forall_mem_list
      intro a ha b hb
      have ha' := hcp a ha
      have hb' := hcp b hb
      simp only [decide_eq_true_eq] at ha' hb'
      simp [dateLE, ha', hb']
    have hsub : ((entries.filter is_image).filter
        (fun e => decide (get_creation_date osNt e.st = tstamp))).Sublist
        (List.mergeSort (entries.filter is_image) (dateLE osNt)) :=
      List.sublist_mergeSort (dateLE_trans osNt) (dateLE_total osNt)
        hcpair (List.filter_sublist _)
    have hsub2 : ((entries.filter is_image).filter
        (fun e => decide (get_creation_date osNt e.st = tstamp))).Sublist
        ((find_images osNt entries).filter
          (fun e => decide (get_creation_date osNt e.st = tstamp))) := by
      have h1 := List.filter_eq_self.2 hcp
      have h2 := hsub.filter (fun e => decide (get_creation_date osNt e.st = tstamp))
      rw [h1] at h2
      exact h2
    have hlen : ((find_images osNt entries).filter
        (fun e => decide (get_creation_date osNt e.st = tstamp))).length =
        ((entries.filter is_image).filter
          (fun e => decide (get_creation_date osNt e.st = tstamp))).length :=
      (hperm.filter _).length_eq
    exact (hsub2.eq_of_length hlen.symm).symm

/-- C6 witness: a listing with a text file and two images listed
newest-first; `find_images` drops the text file and reorders the images
oldest-first. -/
theorem find_images_spec_witness :
    find_images false [eTxt, eNew, eOld] = [eOld, eNew] ∧
    (∀ x ∈ find_images false [eTxt, eNew, eOld],
      x ∈ [eTxt, eNew, eOld] ∧ is_image x = true) := by
  have heval : find_images false [eTxt, eNew, eOld] = [eOld, eNew] := by
    show (List.filter is_image [eTxt, eNew, eOld]).mergeSort (dateLE false) = _
    rw [show List.filter is_image [eTxt, eNew, eOld] = [eNew, eOld] from by decide]
    simp [List.mergeSort, List.merge, dateLE, eOld, eNew, get_creation_date]
  exact ⟨heval, (find_images_spec false [eTxt, eNew, eOld]).2.1⟩

/-! ### Claim C8 -/

/-- C8: whenever validation fails — the folder is absent, not a directory,
unlistable, empty, or holds no recognized image — `main` exits with code 1,
leaves the filesystem untouched, and never consults the confirmation
responses (the result holds for every response stream). -/
theorem main_validation_failure (folder : Folder) (osNt : Bool) (fs : FS)
    (responses : List Name)
    (h : folder.present = false ∨ folder.isDir = false ∨
      folder.readable = false ∨ folder.entries = [] ∨
      find_images osNt folder.entries = []) :
    main folder osNt fs responses = some (1, fs) := by
  unfold main
  rcases h with h | h | h | h | h
  · simp [h]
  · by_cases hp : folder.present <;> simp [hp, h]
  · by_cases hp : folder.present <;> by_cases hd : folder.isDir <;>
      simp [hp, hd, h]
  · by_cases hp : folder.present <;> by_cases hd : folder.isDir <;>
      by_cases hr : folder.readable <;> simp [hp, hd, hr, h]
  · by_cases hp : folder.present <;> by_cases hd : folder.isDir <;>
      by_cases hr : folder.readable <;>
      by_cases he : folder.entries.isEmpty <;> simp [hp, hd, hr, he, h]

/-- C8 witness: a missing folder exits 1 with the filesystem unchanged,
whatever the responses would have been. -/
theorem main_validation_failure_witness :
    Folder.present badFolder = false ∧
    main badFolder false [(dpath "a.heic", 42)] ["y".data] =
      some (1, [(dpath "a.heic", 42)]) :=
  ⟨rfl, main_validation_failure badFolder false [(dpath "a.heic", 42)]
    ["y".data] (Or.inl rfl)⟩

/-! ### Claim C9 -/

/-- C9: when validation succeeds and the user declines the confirmation
prompt (a stripped, lowercased `n`/`no` answer, after any number of
re-prompts), `main` performs no rename — the filesystem is returned
exactly as it was — and exits with code 0. -/
theorem main_cancel (folder : Folder) (osNt : Bool) (fs : FS)
    (responses : List Name)
    (hp : folder.present = true) (hd : folder.isDir = true)
    (hr : folder.readable = true) (hne : folder.entries ≠ [])
    (him : find_images osNt folder.entries ≠ [])
    (hno : confirm_action responses = some false) :
    main folder osNt fs responses = some (0, fs) := by
  unfold main
  have h1 : folder.entries.isEmpty = false := by
    rw [List.isEmpty_eq_false]
    exact hne
  have h2 : (find_images osNt folder.entries).isEmpty = false := by
    rw [List.isEmpty_eq_false]
    exact him
  simp [hp, hd, hr, h1, h2, hno]

/-- C9 witness: a valid one-image folder where the user first types an
unrecognized answer and then declines with a padded upper-case `N`; the
filesystem comes back unchanged with exit code 0. -/
theorem main_cancel_witness :
    confirm_action ["maybe".data, " N ".data] = some false ∧
    main okFolder false [(dpath "a.heic", 42)] ["maybe".data, " N ".data] =
      some (0, [(dpath "a.heic", 42)]) := by
  refine ⟨by decide, main_cancel okFolder false _ _ rfl rfl rfl (by decide)
    ?_ (by decide)⟩
  show find_images false okFolder.entries ≠ []
  have heval : find_images false okFolder.entries =
      [⟨"a.heic".data, true, ⟨some 3, 0, 0⟩⟩] := by
    show (List.filter is_image okFolder.entries).mergeSort (dateLE false) = _
    rw [show List.filter is_image okFolder.entries =
      [⟨"a.heic".data, true, ⟨some 3, 0, 0⟩⟩] from by decide]
    exact List.mergeSort_singleton _
  rw [heval]
  simp

end SnapSequence
